import Mathlib

/-!
Verification of the ridge-regression core of the repository: the SVD-based
solver `ridge`, the empirical-Bayes penalty tuner `tuneridge`, and the
significance computation in `fit` (all in the GOES autoregression notebook).

The numerical code operates on a singular value decomposition computed by
`np.linalg.svd(x, 0)`.  The decomposition itself is not computable in the
embedding, so each function is parametrised by decomposition data
(`SVDData`) together with, where a claim needs it, the hypothesis `IsSVD`
stating that the data is a genuine economy-size SVD of the design matrix.
Floating-point arithmetic is modelled by exact arithmetic in a linear
ordered field (instantiated at `ℝ` for the claims; concrete runs evaluate
over rational inputs).
-/

open Matrix Filter

/-- Economy-size SVD data, as returned by `np.linalg.svd(x, 0)` for an
`n × p` matrix: `u` is `n × k`, `s` has length `k`, `v = vt.T` is `p × k`,
where `k = min n p`. -/
structure SVDData (n k p : ℕ) (F : Type) where
  U : Matrix (Fin n) (Fin k) F
  S : Fin k → F
  V : Matrix (Fin p) (Fin k) F

variable {n k k' p q : ℕ} {F : Type} [LinearOrderedField F]

/-- `d` is a genuine economy SVD of `x`: the factorisation holds, the
columns of `U` and of `V` are orthonormal, and the singular values are
non-negative (as `np.linalg.svd` guarantees). -/
def IsSVD (x : Matrix (Fin n) (Fin p) F) (d : SVDData n k p F) : Prop :=
  x = d.U * Matrix.diagonal d.S * d.Vᵀ ∧
    d.Uᵀ * d.U = 1 ∧ d.Vᵀ * d.V = 1 ∧ ∀ i, 0 ≤ d.S i

/-- The body of `ridge(x, y, f)` after the SVD of `x`:
`g = s / (s**2 + f)`, `b = np.dot(v, np.dot(u.T, y) * g)`. -/
def ridge (d : SVDData n k p F) (y : Fin n → F) (f : F) : Fin p → F :=
  d.V *ᵥ fun i => (d.Uᵀ *ᵥ y) i * (d.S i / (d.S i ^ 2 + f))

/-- The closure `fit(lam)` inside `tuneridge`, which reuses the SVD
computed once from `x`: `g = s / (s**2 + lam)`,
`return np.dot(v, np.dot(u.T, y) * g)`. -/
def fitc (d : SVDData n k p F) (y : Fin n → F) (lam : F) : Fin p → F :=
  d.V *ᵥ fun i => (d.Uᵀ *ᵥ y) i * (d.S i / (d.S i ^ 2 + lam))

/-- The `for itr in range(100)` loop of `tuneridge`, with the iteration
budget as fuel.  `np2` is `n + p + 2`, `pa2` is `p + 2*a - 2`, `b` is the
scale hyperparameter.  In each pass: `rss`, `bss` from the current
coefficients, `sigma2` from the pre-update `lam`, the new `lam`, the refit
`bhat1`, then the convergence check `np.sum((bhat1 - bhat)**2) < 1e-4`
(`break` returns the current `bhat` with the new `lam` and `sigma2`).
When the fuel is exhausted the last assigned values are returned.  The
`sigma2` argument of the initial call is a seed for the variable that
Python leaves unassigned until the first pass; it is overwritten in the
first pass and can never be returned since the loop runs at least once. -/
def tuneloop (d : SVDData n k p F) (x : Matrix (Fin n) (Fin p) F) (y : Fin n → F)
    (np2 pa2 b : F) : ℕ → (Fin p → F) → F → F → (Fin p → F) × F × F
  | 0, bhat, lam, sigma2 => (bhat, lam, sigma2)
  | fuel + 1, bhat, lam, _ =>
    let rss : F := ∑ i, (y i - (x *ᵥ bhat) i) ^ 2
    let bss : F := ∑ i, bhat i ^ 2
    let sigma2 : F := (rss + lam * bss) / np2
    let lam1 : F := pa2 / (bss / sigma2 + 2 * b)
    let bhat1 : Fin p → F := fitc d y lam1
    if (∑ i, (bhat1 i - bhat i) ^ 2) < 1 / 10000 then (bhat, lam1, sigma2)
    else tuneloop d x y np2 pa2 b fuel bhat1 lam1 sigma2

/-- `tuneridge(x, y, r2)`: hyperparameters `a = p/2`,
`b = 1/np.sqrt(1/r2 - 1)`, initial `lam = 1.`, `bhat = fit(lam)`, then the
100-iteration loop.  The decomposition `d` stands for the SVD that the
source computes once from `x`. -/
noncomputable def tuneridge (d : SVDData n k p ℝ) (x : Matrix (Fin n) (Fin p) ℝ)
    (y : Fin n → ℝ) (r2 : ℝ) : (Fin p → ℝ) × ℝ × ℝ :=
  let a : ℝ := (p : ℝ) / 2
  let b : ℝ := 1 / Real.sqrt (1 / r2 - 1)
  tuneloop d x y ((n : ℝ) + (p : ℝ) + 2) ((p : ℝ) + 2 * a - 2) b
    100 (fitc d y 1) 1 0

/-- One pass of the tuning iteration without the stopping check, mapping a
state `(bhat, lam, sigma2)` to the next one.  The visited states of the
`tuneloop` recursion are a prefix of the iterates of this map (the `break`
only truncates the sequence). -/
def stepState (d : SVDData n k p F) (x : Matrix (Fin n) (Fin p) F) (y : Fin n → F)
    (np2 pa2 b : F) (st : (Fin p → F) × F × F) : (Fin p → F) × F × F :=
  let rss : F := ∑ i, (y i - (x *ᵥ st.1) i) ^ 2
  let bss : F := ∑ i, st.1 i ^ 2
  let sigma2 : F := (rss + st.2.1 * bss) / np2
  let lam1 : F := pa2 / (bss / sigma2 + 2 * b)
  (fitc d y lam1, lam1, sigma2)

/-- The iterates of the tuning pass from the initial state
`(fit(1), 1, ·)`; `orbitState … j` is the state after `j` full passes, so
its `lam` (resp. `sigma2`) component is the penalty (resp. noise variance)
computed in pass `j - 1`. -/
def orbitState (d : SVDData n k p F) (x : Matrix (Fin n) (Fin p) F) (y : Fin n → F)
    (np2 pa2 b : F) (j : ℕ) : (Fin p → F) × F × F :=
  (stepState d x y np2 pa2 b)^[j] (fitc d y 1, 1, 0)

/-! ### Spec-side definitions

For refinement claims, the following definitions follow the wording of the
specification (§4.2 and §4.3), to be compared with the definitions above,
which are translated from the source. -/

/-- Spec §4.2 step 1: `shapeParam a = p/2`. -/
def specShapeA (pp : ℕ) : F := (pp : F) / 2

/-- Spec §4.2 step 1: `scaleParam b = 1/sqrt(1/r2 - 1)`. -/
noncomputable def specScaleB (r2 : ℝ) : ℝ := 1 / Real.sqrt (1 / r2 - 1)

/-- Spec §4.2 step 3b: residual sum of squares `rss = ||y - Xb̂||²`. -/
def specRss (x : Matrix (Fin n) (Fin p) F) (y : Fin n → F) (bhat : Fin p → F) : F :=
  ∑ i, (y i - (x *ᵥ bhat) i) ^ 2

/-- Spec §4.2 step 3b: coefficient sum of squares `bss = ||b̂||²`. -/
def specBss (bhat : Fin p → F) : F :=
  ∑ i, bhat i ^ 2

/-- Spec §4.2 step 3c: noise-variance update
`σ² = (rss + λ·bss) / (n + p + 2)`, using the pre-update `λ`. -/
def specSigma2Update (nn pp : ℕ) (rss bss lam : F) : F :=
  (rss + lam * bss) / ((nn : F) + (pp : F) + 2)

/-- Spec §4.2 step 3d: penalty update `λ = (p + 2a - 2) / (bss/σ² + 2b)`,
using the just-updated `σ²`. -/
def specLambdaUpdate (pp : ℕ) (a b bss sigma2 : F) : F :=
  ((pp : F) + 2 * a - 2) / (bss / sigma2 + 2 * b)

/-- Spec §4.2 step 3, as an explicit composition of the named updates in
the stated order: rss and bss from the current coefficients, then σ² using
the pre-update λ, then the new λ, then the refit at the new λ; the
convergence check `||b̂₁ - b̂||² < 1e-4` stops the recursion. -/
def specLoop (d : SVDData n k p F) (x : Matrix (Fin n) (Fin p) F) (y : Fin n → F)
    (a b : F) : ℕ → (Fin p → F) → F → F → (Fin p → F) × F × F
  | 0, bhat, lam, sigma2 => (bhat, lam, sigma2)
  | fuel + 1, bhat, lam, _ =>
    let rss : F := specRss x y bhat
    let bss : F := specBss bhat
    let sigma2 : F := specSigma2Update n p rss bss lam
    let lam1 : F := specLambdaUpdate p a b bss sigma2
    let bhat1 : Fin p → F := fitc d y lam1
    if (∑ i, (bhat1 i - bhat i) ^ 2) < 1 / 10000 then (bhat, lam1, sigma2)
    else specLoop d x y a b fuel bhat1 lam1 sigma2

/-- Spec §4.2 as a whole: hyperparameters from the problem shape and `r2`,
initial penalty `λ = 1`, at most 100 iterations of `specLoop`. -/
noncomputable def specTuner (d : SVDData n k p ℝ) (x : Matrix (Fin n) (Fin p) ℝ)
    (y : Fin n → ℝ) (r2 : ℝ) : (Fin p → ℝ) × ℝ × ℝ :=
  specLoop d x y (specShapeA p) (specScaleB r2) 100 (fitc d y 1) 1 0

/-- Modelled from the spec (§7, `InvalidArgument`): the shape precondition
`p ≤ n` that the spec says is validated before any computation begins.  The
source contains no such validation. -/
def specValidShape (nn pp : ℕ) : Prop := pp ≤ nn

/-- Modelled from the spec (§7, `InvalidArgument`): the precondition
`0 < r2 < 1` that the spec says is validated before any computation
begins.  The source contains no such validation. -/
def specValidR2 (r2 : ℝ) : Prop := 0 < r2 ∧ r2 < 1

/-! ### The significance computation

`fit` in the GOES notebook:
`H = xtx + lam*np.eye(q)`,
`V = s2 * np.linalg.solve(H, np.linalg.solve(H, xtx).T)`,
`cs = np.dot(b, np.linalg.solve(V, b))`,
`pv = 1 - chi2(len(b)).cdf(cs)`.
`np.linalg.solve(A, B)` is embedded as `A.det⁻¹ • (A.adjugate * B)`, which
over a field coincides with `A⁻¹ * B` (`Matrix.inv_def`); the χ² CDF is an
external library function, abstracted as the parameter `chi2cdf`. -/

/-- `np.linalg.solve` with a matrix right-hand side. -/
def msolve [DecidableEq F] (A B : Matrix (Fin q) (Fin q) F) : Matrix (Fin q) (Fin q) F :=
  A.det⁻¹ • (A.adjugate * B)

/-- `np.linalg.solve` with a vector right-hand side. -/
def msolveVec [DecidableEq F] (A : Matrix (Fin q) (Fin q) F) (v : Fin q → F) : Fin q → F :=
  A.det⁻¹ • (A.adjugate *ᵥ v)

/-- The significance computation of `fit`: the chi-squared statistic and
p-value computed from the tuned fit `(b, lam, s2)` and the Gram matrix
`xtx`. -/
def sigfit [DecidableEq F] (chi2cdf : ℕ → F → F) (xtx : Matrix (Fin q) (Fin q) F)
    (b : Fin q → F) (lam s2 : F) : F × F :=
  let H : Matrix (Fin q) (Fin q) F := xtx + lam • (1 : Matrix (Fin q) (Fin q) F)
  let Vm : Matrix (Fin q) (Fin q) F := s2 • msolve H (msolve H xtx)ᵀ
  let cs : F := b ⬝ᵥ msolveVec Vm b
  (cs, 1 - chi2cdf q cs)

/-! ### Concrete instances used in witnesses and counterexamples -/

/-- The SVD data `(u, s, v) = (I, (1), I)` of the 1×1 identity matrix. -/
def d1R : SVDData 1 1 1 ℝ := ⟨1, ![1], 1⟩

/-- The SVD data `(u, s, v) = (I, (1,1), I)` of the 2×2 identity matrix. -/
def d2R : SVDData 2 2 2 ℝ := ⟨1, ![1, 1], 1⟩

/-- The economy SVD data `(u, s, v) = ([[1]], (1), [[1],[0]])` of the wide
1×2 matrix `[[1, 0]]`. -/
def d12R : SVDData 1 1 2 ℝ := ⟨1, ![1], ![![1], ![0]]⟩

/-- The wide 1×2 design matrix `[[1, 0]]` (one observation, two
predictors: `p > n`). -/
def x12R : Matrix (Fin 1) (Fin 2) ℝ := ![![1, 0]]

/-- The SVD data `(u, s, v) = (I, (1,0), I)` of the rank-deficient
diagonal matrix `diag(1, 0)`. -/
def d3R : SVDData 2 2 2 ℝ := ⟨1, ![1, 0], 1⟩

/-- The Euclidean norm `||v||` of a coefficient vector. -/
noncomputable def vnorm {m : ℕ} (v : Fin m → ℝ) : ℝ := Real.sqrt (∑ i, v i ^ 2)

/-! ### General lemmas about the loop -/

/-- One unfolding of `tuneloop`, phrased through `stepState`: a pass either
stops (returning the pre-update coefficients with the new penalty and noise
variance) or recurses on the stepped state. -/
lemma tuneloop_succ (d : SVDData n k p F) (x : Matrix (Fin n) (Fin p) F) (y : Fin n → F)
    (np2 pa2 b : F) (fuel : ℕ) (bhat : Fin p → F) (lam s : F) :
    tuneloop d x y np2 pa2 b (fuel + 1) bhat lam s =
      if (∑ i, ((stepState d x y np2 pa2 b (bhat, lam, s)).1 i - bhat i) ^ 2) < 1 / 10000
      then (bhat, (stepState d x y np2 pa2 b (bhat, lam, s)).2.1,
            (stepState d x y np2 pa2 b (bhat, lam, s)).2.2)
      else tuneloop d x y np2 pa2 b fuel (stepState d x y np2 pa2 b (bhat, lam, s)).1
        (stepState d x y np2 pa2 b (bhat, lam, s)).2.1
        (stepState d x y np2 pa2 b (bhat, lam, s)).2.2 := rfl

/-- The code loop and the spec loop agree pass by pass. -/
lemma tuneloop_eq_specLoop (d : SVDData n k p F) (x : Matrix (Fin n) (Fin p) F)
    (y : Fin n → F) (b : F) : ∀ fuel (bhat : Fin p → F) (lam s : F),
    tuneloop d x y ((n : F) + (p : F) + 2) ((p : F) + 2 * ((p : F) / 2) - 2) b fuel bhat lam s
      = specLoop d x y ((p : F) / 2) b fuel bhat lam s := by
  intro fuel
  induction fuel with
  | zero => intro bhat lam s; rfl
  | succ f ih =>
    intro bhat lam s
    simp only [tuneloop, specLoop, specRss, specBss, specSigma2Update, specLambdaUpdate, ih]

/-- C5: `tuneridge` fixes `a = p/2` and `b = 1/sqrt(1/r2 - 1)`, starts from
`λ = 1`, and in each of at most 100 iterations computes `rss` and `bss`
from the current coefficients, then `σ² = (rss + λ·bss)/(n + p + 2)` with
the pre-update `λ`, then `λ = (p + 2a - 2)/(bss/σ² + 2b)`, then refits at
the new `λ` — in exactly this order: the source tuner coincides with the
spec algorithm `specTuner`, which is built from the named spec updates
`specShapeA`, `specScaleB`, `specRss`, `specBss`, `specSigma2Update`,
`specLambdaUpdate` composed in the stated order. -/
theorem tuneridge_eq_specTuner (d : SVDData n k p ℝ) (x : Matrix (Fin n) (Fin p) ℝ)
    (y : Fin n → ℝ) (r2 : ℝ) : tuneridge d x y r2 = specTuner d x y r2 := by
  simp only [tuneridge, specTuner, specShapeA, specScaleB]
  exact tuneloop_eq_specLoop d x y _ 100 _ 1 0

lemma isSVD_d1R : IsSVD (1 : Matrix (Fin 1) (Fin 1) ℝ) d1R := by
  have hS : (![1] : Fin 1 → ℝ) = fun _ => 1 := by
    funext i; fin_cases i; rfl
  refine ⟨?_, ?_, ?_, ?_⟩
  · simp [d1R, hS, Matrix.diagonal_one]
  · simp [d1R]
  · simp [d1R]
  · intro i; fin_cases i; norm_num [d1R]

lemma isSVD_d2R : IsSVD (1 : Matrix (Fin 2) (Fin 2) ℝ) d2R := by
  have hS : (![1, 1] : Fin 2 → ℝ) = fun _ => 1 := by
    funext i; fin_cases i <;> rfl
  refine ⟨?_, ?_, ?_, ?_⟩
  · simp [d2R, hS, Matrix.diagonal_one]
  · simp [d2R]
  · simp [d2R]
  · intro i; fin_cases i <;> norm_num [d2R]

lemma isSVD_d12R : IsSVD x12R d12R := by
  refine ⟨?_, ?_, ?_, ?_⟩
  · ext i j
    fin_cases i <;> fin_cases j <;>
      simp [d12R, x12R, Matrix.mul_apply, Matrix.diagonal, Fin.sum_univ_one]
  · ext i j
    fin_cases i <;> fin_cases j <;>
      simp [d12R, Matrix.mul_apply, Fin.sum_univ_one]
  · ext i j
    fin_cases i <;> fin_cases j <;>
      simp [d12R, Matrix.mul_apply, Fin.sum_univ_two]
  · intro i; fin_cases i; norm_num [d12R]

lemma isSVD_d3R : IsSVD (Matrix.diagonal ![(1 : ℝ), 0]) d3R := by
  refine ⟨?_, ?_, ?_, ?_⟩
  · simp [d3R]
  · simp [d3R]
  · simp [d3R]
  · intro i; fin_cases i <;> norm_num [d3R]

lemma fitc_d1R (y : Fin 1 → ℝ) (lam : ℝ) :
    fitc d1R y lam = fun i => y i * (1 / (1 + lam)) := by
  funext i
  fin_cases i
  simp [fitc, d1R, Matrix.one_mulVec, Matrix.transpose_one]

lemma fitc_d2R (y : Fin 2 → ℝ) (lam : ℝ) :
    fitc d2R y lam = fun i => y i * (1 / (1 + lam)) := by
  funext i
  fin_cases i <;>
    simp [fitc, d2R, Matrix.one_mulVec, Matrix.transpose_one, Matrix.mulVec,
      Matrix.dotProduct, Fin.sum_univ_two]

lemma fitc_d12R (y : Fin 1 → ℝ) (lam : ℝ) :
    fitc d12R y lam = ![y 0 * (1 / (1 + lam)), 0] := by
  funext j
  fin_cases j <;>
    simp [fitc, d12R, Matrix.one_mulVec, Matrix.transpose_one, Matrix.mulVec,
      Matrix.dotProduct, Fin.sum_univ_one]

/-- With the guess `r2 = 1/2` the scale hyperparameter is
`b = 1/sqrt(1/(1/2) - 1) = 1`. -/
lemma b_half : (1 : ℝ) / Real.sqrt (1 / (1 / 2) - 1) = 1 := by
  norm_num [Real.sqrt_one]

/-! ### Claim C1: what the tuner returns when the convergence check fires -/

/-- C1 (amended): when the convergence check `||b̂₁ - b̂||² < 1e-4` is met
in a pass of the loop, the tuner stops; the coefficient vector it returns
is `b̂` — the pre-update iterate, not the refit `b̂₁` — together with the
`λ` updated in that pass and the `σ²` computed in the same pass. -/
theorem tuneloop_break_returns_prev (d : SVDData n k p ℝ) (x : Matrix (Fin n) (Fin p) ℝ)
    (y : Fin n → ℝ) (np2 pa2 b : ℝ) (fuel : ℕ) (bhat : Fin p → ℝ) (lam s s2 l1 : ℝ)
    (hs2 : s2 = (specRss x y bhat + lam * specBss bhat) / np2)
    (hl1 : l1 = pa2 / (specBss bhat / s2 + 2 * b))
    (hconv : (∑ i, (fitc d y l1 i - bhat i) ^ 2) < 1 / 10000) :
    tuneloop d x y np2 pa2 b (fuel + 1) bhat lam s = (bhat, l1, s2) := by
  subst hs2
  subst hl1
  simp only [specRss, specBss] at hconv ⊢
  simp only [tuneloop]
  rw [if_pos hconv]

/-- C1 (counterexample): at the design matrix `1` (2×2 identity, with its
SVD `(I, (1,1), I)`), response `y = (1/25, 0)` and `r2 = 1/2`, the
convergence check fires in the first pass
(`||b̂₁ - b̂||² = 9/122500 < 1e-4`), and the tuner returns the coefficient
vector `b̂ = (1/50, 0)` — not the refit `b̂₁ = fit(λ) = (1/35, 0)` at the
returned penalty `λ = 2/5` as the claim states. -/
theorem tuneridge_break_counterexample :
    IsSVD (1 : Matrix (Fin 2) (Fin 2) ℝ) d2R ∧
    tuneridge d2R 1 ![1 / 25, 0] (1 / 2) = (![1 / 50, 0], 2 / 5, 1 / 7500) ∧
    fitc d2R ![1 / 25, 0] (2 / 5) = ![1 / 35, 0] ∧
    (∑ i, (fitc d2R ![(1 : ℝ) / 25, 0] (2 / 5) i - fitc d2R ![(1 : ℝ) / 25, 0] 1 i) ^ 2)
      < 1 / 10000 ∧
    (![1 / 50, 0] : Fin 2 → ℝ) ≠ ![1 / 35, 0] := by
  have hf1 : fitc d2R ![(1 : ℝ) / 25, 0] 1 = ![1 / 50, 0] := by
    rw [fitc_d2R]; funext i; fin_cases i <;> norm_num
  have hf25 : fitc d2R ![(1 : ℝ) / 25, 0] (2 / 5) = ![1 / 35, 0] := by
    rw [fitc_d2R]; funext i; fin_cases i <;> norm_num
  have hdist : (∑ i, (fitc d2R ![(1 : ℝ) / 25, 0] (2 / 5) i
      - fitc d2R ![(1 : ℝ) / 25, 0] 1 i) ^ 2) < 1 / 10000 := by
    rw [hf1, hf25]
    norm_num [Fin.sum_univ_two]
  refine ⟨isSVD_d2R, ?_, hf25, hdist, ?_⟩
  · have st1 : stepState d2R 1 ![(1 : ℝ) / 25, 0] 6 2 1 (fitc d2R ![(1 : ℝ) / 25, 0] 1, 1, 0)
        = (fitc d2R ![(1 : ℝ) / 25, 0] (2 / 5), 2 / 5, 1 / 7500) := by
      simp only [stepState, hf1, Matrix.one_mulVec]
      norm_num [Fin.sum_univ_two]
    have h1 : ((2 : ℕ) : ℝ) + ((2 : ℕ) : ℝ) + 2 = 6 := by norm_num
    have h2 : ((2 : ℕ) : ℝ) + 2 * (((2 : ℕ) : ℝ) / 2) - 2 = 2 := by norm_num
    unfold tuneridge
    simp only [h1, h2, b_half]
    rw [show (100 : ℕ) = 99 + 1 from rfl, tuneloop_succ, st1]
    rw [if_pos (by rw [hf1, hf25]; norm_num [Fin.sum_univ_two])]
    rw [hf1]
  · intro h
    have h0 := congrFun h 0
    norm_num [Matrix.cons_val_zero] at h0

/-- Witness for `tuneloop_break_returns_prev` at the concrete converging
run of `tuneridge_break_counterexample`. -/
theorem tuneloop_break_returns_prev_witness :
    ((1 : ℝ) / 7500 = (specRss (1 : Matrix (Fin 2) (Fin 2) ℝ) ![1 / 25, 0]
        (fitc d2R ![1 / 25, 0] 1) + 1 * specBss (fitc d2R ![1 / 25, 0] 1)) / 6) ∧
    ((2 : ℝ) / 5 = 2 / (specBss (fitc d2R ![(1 : ℝ) / 25, 0] 1) / (1 / 7500) + 2 * 1)) ∧
    ((∑ i, (fitc d2R ![(1 : ℝ) / 25, 0] (2 / 5) i - fitc d2R ![(1 : ℝ) / 25, 0] 1 i) ^ 2)
      < 1 / 10000) ∧
    tuneloop d2R 1 ![(1 : ℝ) / 25, 0] 6 2 1 (99 + 1) (fitc d2R ![(1 : ℝ) / 25, 0] 1) 1 0
      = (fitc d2R ![(1 : ℝ) / 25, 0] 1, 2 / 5, 1 / 7500) := by
  have hf1 : fitc d2R ![(1 : ℝ) / 25, 0] 1 = ![1 / 50, 0] := by
    rw [fitc_d2R]; funext i; fin_cases i <;> norm_num
  have hf25 : fitc d2R ![(1 : ℝ) / 25, 0] (2 / 5) = ![1 / 35, 0] := by
    rw [fitc_d2R]; funext i; fin_cases i <;> norm_num
  have hA : (1 : ℝ) / 7500 = (specRss (1 : Matrix (Fin 2) (Fin 2) ℝ) ![1 / 25, 0]
      (fitc d2R ![1 / 25, 0] 1) + 1 * specBss (fitc d2R ![1 / 25, 0] 1)) / 6 := by
    simp only [specRss, specBss, hf1, Matrix.one_mulVec]
    norm_num [Fin.sum_univ_two]
  have hB : (2 : ℝ) / 5 = 2 / (specBss (fitc d2R ![(1 : ℝ) / 25, 0] 1) / (1 / 7500) + 2 * 1) := by
    simp only [specBss, hf1]
    norm_num [Fin.sum_univ_two]
  have hC : (∑ i, (fitc d2R ![(1 : ℝ) / 25, 0] (2 / 5) i - fitc d2R ![(1 : ℝ) / 25, 0] 1 i) ^ 2)
      < 1 / 10000 := by
    rw [hf1, hf25]
    norm_num [Fin.sum_univ_two]
  exact ⟨hA, hB, hC, tuneloop_break_returns_prev d2R 1 ![1 / 25, 0] 6 2 1 99
    (fitc d2R ![1 / 25, 0] 1) 1 0 (1 / 7500) (2 / 5) hA hB hC⟩

/-! ### Claim C2: no input validation in `tuneridge` -/

/-- C2 (amended): `tuneridge` performs no input validation.  On the
shape-invalid input `p = 2 > n = 1` (spec §7 requires `InvalidArgument`
before any computation) with any response and any `r2 ∈ (0, 1)`, the
tuner simply proceeds: its value is the unchecked 100-pass iteration from
`λ = 1`. -/
theorem tuneridge_no_validation (y : Fin 1 → ℝ) (r2 : ℝ) (hr0 : 0 < r2) (hr1 : r2 < 1) :
    ¬ specValidShape 1 2 ∧
    tuneridge d12R x12R y r2 =
      tuneloop d12R x12R y 5 2 (specScaleB r2) 100 (fitc d12R y 1) 1 0 := by
  constructor
  · simp [specValidShape]
  · have h1 : ((1 : ℕ) : ℝ) + ((2 : ℕ) : ℝ) + 2 = 5 := by norm_num
    have h2 : ((2 : ℕ) : ℝ) + 2 * (((2 : ℕ) : ℝ) / 2) - 2 = 2 := by norm_num
    unfold tuneridge specScaleB
    simp only [h1, h2]

/-- Witness for `tuneridge_no_validation` at `y = (1/10)`, `r2 = 1/2`. -/
theorem tuneridge_no_validation_witness :
    (0 : ℝ) < 1 / 2 ∧ (1 : ℝ) / 2 < 1 ∧
    (¬ specValidShape 1 2 ∧
      tuneridge d12R x12R ![1 / 10] (1 / 2) =
        tuneloop d12R x12R ![1 / 10] 5 2 (specScaleB (1 / 2)) 100
          (fitc d12R ![1 / 10] 1) 1 0) :=
  ⟨by norm_num, by norm_num,
    tuneridge_no_validation ![1 / 10] (1 / 2) (by norm_num) (by norm_num)⟩

lemma x12R_mulVec (v : Fin 2 → ℝ) : x12R *ᵥ v = ![v 0] := by
  funext i
  fin_cases i
  simp [x12R, Matrix.mulVec, Matrix.dotProduct, Fin.sum_univ_two]

/-- C2 (counterexample): on the shape-invalid input `x = [[1, 0]]`
(`p = 2 > n = 1`, spec §7: "fails with InvalidArgument … before any
computation begins; never partially executed") with `y = (1/10)` and the
legal guess `r2 = 1/2`, the source tuner does not fail: it runs three full
passes of the loop, the convergence check then fires, and a completely
computed triple is returned. -/
theorem tuneridge_invalid_shape_counterexample :
    ¬ specValidShape 1 2 ∧
    IsSVD x12R d12R ∧
    tuneridge d12R x12R ![1 / 10] (1 / 2)
      = (![509 / 6130, 0], 127504 / 1422909, 26 / 76625) := by
  have hfa : fitc d12R ![(1 : ℝ) / 10] 1 = ![1 / 20, 0] := by
    rw [fitc_d12R]; funext i; fin_cases i <;> norm_num
  have hfb : fitc d12R ![(1 : ℝ) / 10] (4 / 9) = ![9 / 130, 0] := by
    rw [fitc_d12R]; funext i; fin_cases i <;> norm_num
  have hfc : fitc d12R ![(1 : ℝ) / 10] (104 / 509) = ![509 / 6130, 0] := by
    rw [fitc_d12R]; funext i; fin_cases i <;> norm_num
  have hfd : fitc d12R ![(1 : ℝ) / 10] (127504 / 1422909) = ![1422909 / 15504130, 0] := by
    rw [fitc_d12R]; funext i; fin_cases i <;> norm_num
  have st1 : stepState d12R x12R ![(1 : ℝ) / 10] 5 2 1 (fitc d12R ![(1 : ℝ) / 10] 1, 1, 0)
      = (fitc d12R ![(1 : ℝ) / 10] (4 / 9), 4 / 9, 1 / 1000) := by
    simp only [stepState, hfa, x12R_mulVec]
    norm_num [Fin.sum_univ_one, Fin.sum_univ_two]
  have st2 : stepState d12R x12R ![(1 : ℝ) / 10] 5 2 1
        (fitc d12R ![(1 : ℝ) / 10] (4 / 9), 4 / 9, 1 / 1000)
      = (fitc d12R ![(1 : ℝ) / 10] (104 / 509), 104 / 509, 13 / 21125) := by
    simp only [stepState, hfb, x12R_mulVec]
    norm_num [Fin.sum_univ_one, Fin.sum_univ_two]
  have st3 : stepState d12R x12R ![(1 : ℝ) / 10] 5 2 1
        (fitc d12R ![(1 : ℝ) / 10] (104 / 509), 104 / 509, 13 / 21125)
      = (fitc d12R ![(1 : ℝ) / 10] (127504 / 1422909), 127504 / 1422909, 26 / 76625) := by
    simp only [stepState, hfc, x12R_mulVec]
    norm_num [Fin.sum_univ_one, Fin.sum_univ_two]
  refine ⟨by simp [specValidShape], isSVD_d12R, ?_⟩
  have h1 : ((1 : ℕ) : ℝ) + ((2 : ℕ) : ℝ) + 2 = 5 := by norm_num
  have h2 : ((2 : ℕ) : ℝ) + 2 * (((2 : ℕ) : ℝ) / 2) - 2 = 2 := by norm_num
  unfold tuneridge
  simp only [h1, h2, b_half]
  rw [show (100 : ℕ) = 99 + 1 from rfl, tuneloop_succ, st1]
  rw [if_neg (by rw [hfa, hfb]; norm_num [Fin.sum_univ_two])]
  rw [show (99 : ℕ) = 98 + 1 from rfl, tuneloop_succ, st2]
  rw [if_neg (by rw [hfb, hfc]; norm_num [Fin.sum_univ_two])]
  rw [show (98 : ℕ) = 97 + 1 from rfl, tuneloop_succ, st3]
  rw [if_pos (by rw [hfc, hfd]; norm_num [Fin.sum_univ_two])]
  rw [hfc]

/-! ### Claim C10: positivity invariants of the tuning loop -/

/-- C10 (counterexample): with `p = 1` the numerator `p + 2a - 2` of the
penalty update is `0`, so `λ` becomes `0`; on `x = [[1]]`, `y = (1)`
(nonzero), `r2 = 1/2`, the first pass is not within tolerance
(`||b̂₁ - b̂||² = 1/4`), and the `σ²` computed in the second pass is
`(rss + λ·bss)/(n+p+2) = (0 + 0·1)/4 = 0` — not strictly positive.  The
loop then stops and the returned triple itself carries `σ² = 0` (and
`λ = 0`).  (In IEEE arithmetic the intermediate quotient `bss/σ² = 1/0`
of that pass is `inf` where the exact embedding gives `0`; the computed
`λ = 0/(…+2b) = 0`, the tolerance comparison and the returned triple are
identical in both semantics.) -/
theorem tuner_sigma2_zero_counterexample :
    IsSVD (1 : Matrix (Fin 1) (Fin 1) ℝ) d1R ∧
    (![(1 : ℝ)] : Fin 1 → ℝ) ≠ 0 ∧
    specScaleB (1 / 2) = 1 ∧
    ¬ ((∑ i, ((orbitState d1R 1 ![(1 : ℝ)] 4 0 1 1).1 i - fitc d1R ![(1 : ℝ)] 1 i) ^ 2)
        < 1 / 10000) ∧
    (orbitState d1R 1 ![(1 : ℝ)] 4 0 1 2).2.2 = 0 ∧
    tuneridge d1R 1 ![(1 : ℝ)] (1 / 2) = (fun _ => 1, 0, 0) := by
  have hf1 : fitc d1R ![(1 : ℝ)] 1 = fun _ => 1 / 2 := by
    rw [fitc_d1R]; funext i; norm_num
  have hf0 : fitc d1R ![(1 : ℝ)] 0 = fun _ => 1 := by
    rw [fitc_d1R]; funext i; norm_num
  have st1 : stepState d1R 1 ![(1 : ℝ)] 4 0 1 (fitc d1R ![(1 : ℝ)] 1, 1, 0)
      = (fun _ => 1, 0, 1 / 8) := by
    simp only [stepState, hf1, Matrix.one_mulVec]
    norm_num [Fin.sum_univ_one, hf0]
  have st2 : stepState d1R 1 ![(1 : ℝ)] 4 0 1 (fun _ => (1 : ℝ), 0, 1 / 8)
      = (fun _ => 1, 0, 0) := by
    simp only [stepState, Matrix.one_mulVec]
    norm_num [Fin.sum_univ_one, hf0]
  have orb1 : orbitState d1R 1 ![(1 : ℝ)] 4 0 1 1 = (fun _ => 1, 0, 1 / 8) := by
    unfold orbitState
    rw [Function.iterate_one, st1]
  refine ⟨isSVD_d1R, ?_, ?_, ?_, ?_, ?_⟩
  · intro h
    have h0 := congrFun h 0
    norm_num [Matrix.cons_val_zero] at h0
  · unfold specScaleB
    exact b_half
  · rw [orb1, hf1]
    norm_num [Fin.sum_univ_one]
  · show (stepState d1R 1 ![(1 : ℝ)] 4 0 1 ((stepState d1R 1 ![(1 : ℝ)] 4 0 1)^[1]
      (fitc d1R ![(1 : ℝ)] 1, 1, 0))).2.2 = 0
    rw [Function.iterate_one, st1, st2]
  · have h1 : ((1 : ℕ) : ℝ) + ((1 : ℕ) : ℝ) + 2 = 4 := by norm_num
    have h2 : ((1 : ℕ) : ℝ) + 2 * (((1 : ℕ) : ℝ) / 2) - 2 = 0 := by norm_num
    unfold tuneridge
    simp only [h1, h2, b_half]
    rw [show (100 : ℕ) = 99 + 1 from rfl, tuneloop_succ, st1]
    rw [if_neg (by rw [hf1]; norm_num [Fin.sum_univ_one])]
    rw [show (99 : ℕ) = 98 + 1 from rfl, tuneloop_succ, st2]
    rw [if_pos (by norm_num [Fin.sum_univ_one])]

/-- For `r2 ∈ (0, 1)` the scale hyperparameter `b = 1/sqrt(1/r2 - 1)` is
strictly positive. -/
lemma specScaleB_pos (r2 : ℝ) (hr0 : 0 < r2) (hr1 : r2 < 1) : 0 < specScaleB r2 := by
  unfold specScaleB
  have h1 : (1 : ℝ) < 1 / r2 := by
    rw [lt_div_iff₀ hr0]
    linarith
  have h2 : (0 : ℝ) < 1 / r2 - 1 := by linarith
  have h3 : 0 < Real.sqrt (1 / r2 - 1) := Real.sqrt_pos.mpr h2
  positivity

/-- A nonzero vector has strictly positive sum of squares. -/
lemma sumSq_pos_of_ne_zero {m : ℕ} (y : Fin m → ℝ) (hy : y ≠ 0) :
    0 < ∑ i, y i ^ 2 := by
  obtain ⟨i, hi⟩ := Function.ne_iff.mp hy
  refine Finset.sum_pos' (fun j _ => sq_nonneg (y j)) ⟨i, Finset.mem_univ i, ?_⟩
  exact lt_of_le_of_ne (sq_nonneg (y i)) (Ne.symm (pow_ne_zero 2 hi))

/-- One pass of the tuner, for `p ≥ 2`, nonzero `y` and positive scale
hyperparameter, maps a state with positive penalty to a state with
positive noise variance and positive penalty, and the denominator
`bss/σ² + 2b` of the penalty update is positive. -/
lemma stepState_pos (d : SVDData n k p ℝ) (x : Matrix (Fin n) (Fin p) ℝ)
    (y : Fin n → ℝ) (b : ℝ) (hp : 2 ≤ p) (hy : y ≠ 0) (hb : 0 < b)
    (st : (Fin p → ℝ) × ℝ × ℝ) (hlam : 0 < st.2.1) :
    0 < (stepState d x y ((n : ℝ) + (p : ℝ) + 2) ((p : ℝ) + 2 * ((p : ℝ) / 2) - 2) b st).2.1 ∧
    0 < (stepState d x y ((n : ℝ) + (p : ℝ) + 2) ((p : ℝ) + 2 * ((p : ℝ) / 2) - 2) b st).2.2 ∧
    0 < specBss st.1
        / (stepState d x y ((n : ℝ) + (p : ℝ) + 2) ((p : ℝ) + 2 * ((p : ℝ) / 2) - 2) b st).2.2
      + 2 * b := by
  have hbss : (0 : ℝ) ≤ ∑ i, st.1 i ^ 2 := Finset.sum_nonneg fun i _ => sq_nonneg _
  have hrss : (0 : ℝ) ≤ ∑ i, (y i - (x *ᵥ st.1) i) ^ 2 :=
    Finset.sum_nonneg fun i _ => sq_nonneg _
  have hnum : 0 < (∑ i, (y i - (x *ᵥ st.1) i) ^ 2) + st.2.1 * ∑ i, st.1 i ^ 2 := by
    rcases eq_or_lt_of_le hbss with hz | hpos
    · have hall : ∀ i, st.1 i = 0 := by
        intro i
        have := (Finset.sum_eq_zero_iff_of_nonneg
          (fun j (_ : j ∈ Finset.univ) => sq_nonneg (st.1 j))).mp hz.symm i (Finset.mem_univ i)
        exact (pow_eq_zero_iff two_ne_zero).mp this
      have hst0 : st.1 = 0 := funext hall
      have hx0 : x *ᵥ st.1 = 0 := by rw [hst0, Matrix.mulVec_zero]
      have : (∑ i, (y i - (x *ᵥ st.1) i) ^ 2) = ∑ i, y i ^ 2 := by
        rw [hx0]; simp
      rw [this, ← hz]
      simpa using sumSq_pos_of_ne_zero y hy
    · have : 0 < st.2.1 * ∑ i, st.1 i ^ 2 := mul_pos hlam hpos
      linarith
  have hnp2 : (0 : ℝ) < (n : ℝ) + (p : ℝ) + 2 := by positivity
  have hsig : 0 < ((∑ i, (y i - (x *ᵥ st.1) i) ^ 2) + st.2.1 * ∑ i, st.1 i ^ 2)
      / ((n : ℝ) + (p : ℝ) + 2) := div_pos hnum hnp2
  have hden : 0 < (∑ i, st.1 i ^ 2)
      / (((∑ i, (y i - (x *ᵥ st.1) i) ^ 2) + st.2.1 * ∑ i, st.1 i ^ 2)
        / ((n : ℝ) + (p : ℝ) + 2)) + 2 * b := by
    have h1 : (0 : ℝ) ≤ (∑ i, st.1 i ^ 2)
        / (((∑ i, (y i - (x *ᵥ st.1) i) ^ 2) + st.2.1 * ∑ i, st.1 i ^ 2)
          / ((n : ℝ) + (p : ℝ) + 2)) := div_nonneg hbss (le_of_lt hsig)
    have h2 : (0 : ℝ) < 2 * b := by linarith
    linarith
  have hpa2 : (0 : ℝ) < (p : ℝ) + 2 * ((p : ℝ) / 2) - 2 := by
    have h2p : (2 : ℝ) ≤ (p : ℝ) := by exact_mod_cast hp
    have : (p : ℝ) + 2 * ((p : ℝ) / 2) - 2 = 2 * (p : ℝ) - 2 := by ring
    rw [this]
    linarith
  exact ⟨div_pos hpa2 hden, hsig, hden⟩


/-- The `(λ, σ²)` pair that any run of the loop (with at least one pass)
returns is positive, under the same hypotheses: the break only stops at a
state whose just-computed `λ` and `σ²` are positive. -/
lemma tuneloop_result_pos (d : SVDData n k p ℝ) (x : Matrix (Fin n) (Fin p) ℝ)
    (y : Fin n → ℝ) (b : ℝ) (hp : 2 ≤ p) (hy : y ≠ 0) (hb : 0 < b) :
    ∀ (fuel : ℕ) (bhat : Fin p → ℝ) (lam s : ℝ), 0 < lam →
    0 < (tuneloop d x y ((n : ℝ) + (p : ℝ) + 2) ((p : ℝ) + 2 * ((p : ℝ) / 2) - 2) b
        (fuel + 1) bhat lam s).2.1 ∧
    0 < (tuneloop d x y ((n : ℝ) + (p : ℝ) + 2) ((p : ℝ) + 2 * ((p : ℝ) / 2) - 2) b
        (fuel + 1) bhat lam s).2.2 := by
  intro fuel
  induction fuel with
  | zero =>
    intro bhat lam s hlam
    have h := stepState_pos d x y b hp hy hb (bhat, lam, s) hlam
    rw [tuneloop_succ]
    split_ifs with hc
    · exact ⟨h.1, h.2.1⟩
    · exact ⟨h.1, h.2.1⟩
  | succ f ih =>
    intro bhat lam s hlam
    have h := stepState_pos d x y b hp hy hb (bhat, lam, s) hlam
    rw [tuneloop_succ]
    split_ifs with hc
    · exact ⟨h.1, h.2.1⟩
    · exact ih _ _ _ h.1

/-- C10 (amended): for `p ≥ 2` (so that the numerator `p + 2a - 2 = 2p - 2`
of the penalty update is positive), every nonzero `y` and every
`r2 ∈ (0, 1)`, throughout the tuning iteration the penalty stays strictly
positive, the noise variance `σ²` computed in every pass is strictly
positive, and the denominator `bss/σ² + 2b` of the penalty update is
strictly positive; in particular every penalty value passed to the inner
ridge solve is non-negative (and finite), and the `(λ, σ²)` pair that
`tuneridge` itself returns is strictly positive.  (The states the executed
loop visits are a prefix of the `orbitState` iterates: the break only
truncates the sequence.)  For `p = 1` the statement fails (see the
counterexample): there the penalty becomes `0` and `σ²` can vanish. -/
theorem tuner_orbit_invariants (d : SVDData n k p ℝ) (x : Matrix (Fin n) (Fin p) ℝ)
    (y : Fin n → ℝ) (r2 : ℝ) (hp : 2 ≤ p) (hy : y ≠ 0) (hr0 : 0 < r2) (hr1 : r2 < 1) :
    ∀ j : ℕ,
    0 < (orbitState d x y ((n : ℝ) + (p : ℝ) + 2) ((p : ℝ) + 2 * ((p : ℝ) / 2) - 2)
        (specScaleB r2) j).2.1 ∧
    (j ≠ 0 → 0 < (orbitState d x y ((n : ℝ) + (p : ℝ) + 2) ((p : ℝ) + 2 * ((p : ℝ) / 2) - 2)
        (specScaleB r2) j).2.2) ∧
    (0 < specBss (orbitState d x y ((n : ℝ) + (p : ℝ) + 2) ((p : ℝ) + 2 * ((p : ℝ) / 2) - 2)
        (specScaleB r2) j).1
      / (orbitState d x y ((n : ℝ) + (p : ℝ) + 2) ((p : ℝ) + 2 * ((p : ℝ) / 2) - 2)
        (specScaleB r2) (j + 1)).2.2 + 2 * specScaleB r2) ∧
    (0 < (tuneridge d x y r2).2.1 ∧ 0 < (tuneridge d x y r2).2.2) := by
  have hb := specScaleB_pos r2 hr0 hr1
  have hstep : ∀ j : ℕ,
      orbitState d x y ((n : ℝ) + (p : ℝ) + 2) ((p : ℝ) + 2 * ((p : ℝ) / 2) - 2)
        (specScaleB r2) (j + 1)
      = stepState d x y ((n : ℝ) + (p : ℝ) + 2) ((p : ℝ) + 2 * ((p : ℝ) / 2) - 2)
        (specScaleB r2)
        (orbitState d x y ((n : ℝ) + (p : ℝ) + 2) ((p : ℝ) + 2 * ((p : ℝ) / 2) - 2)
          (specScaleB r2) j) := by
    intro j
    unfold orbitState
    exact Function.iterate_succ_apply' _ j _
  have main : ∀ j : ℕ,
      0 < (orbitState d x y ((n : ℝ) + (p : ℝ) + 2) ((p : ℝ) + 2 * ((p : ℝ) / 2) - 2)
        (specScaleB r2) j).2.1 ∧
      (j ≠ 0 → 0 < (orbitState d x y ((n : ℝ) + (p : ℝ) + 2) ((p : ℝ) + 2 * ((p : ℝ) / 2) - 2)
        (specScaleB r2) j).2.2) := by
    intro j
    induction j with
    | zero => exact ⟨one_pos, fun h => absurd rfl h⟩
    | succ m ih =>
      have h := stepState_pos d x y (specScaleB r2) hp hy hb _ ih.1
      rw [← hstep m] at h
      exact ⟨h.1, fun _ => h.2.1⟩
  intro j
  have h := stepState_pos d x y (specScaleB r2) hp hy hb _ (main j).1
  rw [← hstep j] at h
  have hres := tuneloop_result_pos d x y (specScaleB r2) hp hy hb 99 (fitc d y 1) 1 0 one_pos
  exact ⟨(main j).1, (main j).2, by simpa [specBss] using h.2.2, hres⟩

/-- Witness for `tuner_orbit_invariants` at `p = 2`, `x` the 2×2 identity,
`y = (1, 0)`, `r2 = 1/2`, first pass. -/
theorem tuner_orbit_invariants_witness :
    (2 ≤ 2) ∧ ((![(1 : ℝ), 0] : Fin 2 → ℝ) ≠ 0) ∧ ((0 : ℝ) < 1 / 2) ∧ ((1 : ℝ) / 2 < 1) ∧
    (0 < (orbitState d2R 1 ![(1 : ℝ), 0] (((2 : ℕ) : ℝ) + ((2 : ℕ) : ℝ) + 2)
        (((2 : ℕ) : ℝ) + 2 * (((2 : ℕ) : ℝ) / 2) - 2) (specScaleB (1 / 2)) 1).2.1 ∧
      (1 ≠ 0 → 0 < (orbitState d2R 1 ![(1 : ℝ), 0] (((2 : ℕ) : ℝ) + ((2 : ℕ) : ℝ) + 2)
        (((2 : ℕ) : ℝ) + 2 * (((2 : ℕ) : ℝ) / 2) - 2) (specScaleB (1 / 2)) 1).2.2) ∧
      0 < specBss (orbitState d2R 1 ![(1 : ℝ), 0] (((2 : ℕ) : ℝ) + ((2 : ℕ) : ℝ) + 2)
        (((2 : ℕ) : ℝ) + 2 * (((2 : ℕ) : ℝ) / 2) - 2) (specScaleB (1 / 2)) 1).1
        / (orbitState d2R 1 ![(1 : ℝ), 0] (((2 : ℕ) : ℝ) + ((2 : ℕ) : ℝ) + 2)
          (((2 : ℕ) : ℝ) + 2 * (((2 : ℕ) : ℝ) / 2) - 2) (specScaleB (1 / 2)) (1 + 1)).2.2
        + 2 * specScaleB (1 / 2) ∧
      (0 < (tuneridge d2R 1 ![(1 : ℝ), 0] (1 / 2)).2.1 ∧
        0 < (tuneridge d2R 1 ![(1 : ℝ), 0] (1 / 2)).2.2)) := by
  have hy : (![(1 : ℝ), 0] : Fin 2 → ℝ) ≠ 0 := by
    intro h
    have h0 := congrFun h 0
    norm_num [Matrix.cons_val_zero] at h0
  exact ⟨le_refl 2, hy, by norm_num, by norm_num,
    tuner_orbit_invariants d2R 1 ![(1 : ℝ), 0] (1 / 2) (le_refl 2) hy
      (by norm_num) (by norm_num) 1⟩

/-! ### Claim C3: the rank-deficient solve at penalty 0 -/

/-- C3 (supporting evaluation): at the rank-deficient design
`x = diag(1, 0)` (SVD `(I, (1,0), I)`), response `y = (1, 1)` and penalty
`0`, the zero singular value makes the shrinkage denominator vanish:
`s₁² + 0 = 0`, so the code evaluates `0.0/0.0`, which is NaN in IEEE
arithmetic — the coefficients `numpy` returns are NaN, not the minimum-norm
solution.  The exact-field embedding, in which `0/0 = 0` by convention,
realises instead the spec's intended reading ("the 0/0 term is treated as
0") and produces the minimum-norm least-squares solution `(1, 0)`. -/
theorem ridge_zero_singular_eval :
    IsSVD (Matrix.diagonal ![(1 : ℝ), 0]) d3R ∧
    d3R.S 1 = 0 ∧
    d3R.S 1 ^ 2 + (0 : ℝ) = 0 ∧
    ridge d3R ![1, 1] 0 = ![1, 0] := by
  refine ⟨isSVD_d3R, by norm_num [d3R], by norm_num [d3R], ?_⟩
  funext i
  fin_cases i <;>
    simp [ridge, d3R, Matrix.one_mulVec, Matrix.transpose_one, Matrix.mulVec,
      Matrix.dotProduct, Fin.sum_univ_two]

/-! ### Claim C6: shrinkage monotonicity and vanishing limit -/

lemma sumSq_mulVec_orth (V : Matrix (Fin p) (Fin k) ℝ) (h : Vᵀ * V = 1) (w : Fin k → ℝ) :
    ∑ j, (V *ᵥ w) j ^ 2 = ∑ i, w i ^ 2 := by
  have h1 : ∑ j, (V *ᵥ w) j ^ 2 = (V *ᵥ w) ⬝ᵥ (V *ᵥ w) := by
    simp [Matrix.dotProduct, sq]
  have h2 : ∑ i, w i ^ 2 = w ⬝ᵥ w := by
    simp [Matrix.dotProduct, sq]
  rw [h1, h2, Matrix.dotProduct_mulVec]
  conv_lhs => rw [← Matrix.transpose_transpose V, Matrix.vecMul_transpose,
    Matrix.transpose_transpose, Matrix.mulVec_mulVec, h, Matrix.one_mulVec]

lemma shrink_sq_anti (c s l1 l2 : ℝ) (h0 : 0 ≤ l1) (h12 : l1 ≤ l2) :
    (c * (s / (s ^ 2 + l2))) ^ 2 ≤ (c * (s / (s ^ 2 + l1))) ^ 2 := by
  rcases eq_or_ne s 0 with hs | hs
  · subst hs; simp
  · have hs2 : 0 < s ^ 2 := by positivity
    have hd1 : 0 < s ^ 2 + l1 := by linarith
    have hd2 : 0 < s ^ 2 + l2 := by linarith
    rw [mul_pow, mul_pow, div_pow, div_pow]
    have key : s ^ 2 / (s ^ 2 + l2) ^ 2 ≤ s ^ 2 / (s ^ 2 + l1) ^ 2 := by
      gcongr
    exact mul_le_mul_of_nonneg_left key (sq_nonneg c)

lemma ridge_apply (d : SVDData n k p ℝ) (y : Fin n → ℝ) (lam : ℝ) :
    ridge d y lam = d.V *ᵥ fun i => (d.Uᵀ *ᵥ y) i * (d.S i / (d.S i ^ 2 + lam)) := rfl

/-- C6: for a fixed decomposition `(U, S, V)` of `x` and fixed `y`, the
Euclidean norm of the ridge solution is non-increasing as the penalty
increases over `[0, ∞)`, and the solution tends to the zero vector as the
penalty tends to infinity. -/
theorem ridge_shrinkage_monotone (x : Matrix (Fin n) (Fin p) ℝ) (d : SVDData n k p ℝ)
    (hd : IsSVD x d) (y : Fin n → ℝ) :
    (∀ l1 l2 : ℝ, 0 ≤ l1 → l1 ≤ l2 → vnorm (ridge d y l2) ≤ vnorm (ridge d y l1)) ∧
    Tendsto (fun lam => ridge d y lam) atTop (nhds 0) := by
  obtain ⟨hx, hU, hV, hS⟩ := hd
  constructor
  · intro l1 l2 h0 h12
    unfold vnorm
    apply Real.sqrt_le_sqrt
    rw [ridge_apply, ridge_apply, sumSq_mulVec_orth d.V hV, sumSq_mulVec_orth d.V hV]
    exact Finset.sum_le_sum fun i _ =>
      shrink_sq_anti ((d.Uᵀ *ᵥ y) i) (d.S i) l1 l2 h0 h12
  · rw [tendsto_pi_nhds]
    intro j
    have hrw : (fun lam => ridge d y lam j)
        = fun lam => ∑ i, d.V j i * ((d.Uᵀ *ᵥ y) i * (d.S i / (d.S i ^ 2 + lam))) := by
      funext lam
      rfl
    rw [hrw]
    have h0 : (0 : ℝ) = ∑ _i : Fin k, (0 : ℝ) := by simp
    rw [Pi.zero_apply, h0]
    apply tendsto_finset_sum
    intro i _
    rcases eq_or_ne (d.S i) 0 with hs | hs
    · simp [hs]
    · have h1 : Tendsto (fun lam : ℝ => d.S i ^ 2 + lam) atTop atTop :=
        tendsto_atTop_add_const_left _ _ tendsto_id
      have h2 : Tendsto (fun lam : ℝ => (d.S i ^ 2 + lam)⁻¹) atTop (nhds 0) :=
        tendsto_inv_atTop_zero.comp h1
      have h3 := h2.const_mul (d.V j i * ((d.Uᵀ *ᵥ y) i * d.S i))
      rw [mul_zero] at h3
      have heq : (fun lam => d.V j i * ((d.Uᵀ *ᵥ y) i * (d.S i / (d.S i ^ 2 + lam))))
          = fun lam => d.V j i * ((d.Uᵀ *ᵥ y) i * d.S i) * (d.S i ^ 2 + lam)⁻¹ := by
        funext lam
        rw [div_eq_mul_inv]
        ring
      rw [heq]
      exact h3


/-- Witness for `ridge_shrinkage_monotone` at the 1×1 identity design,
`y = (3)`, penalties `1 ≤ 2`. -/
theorem ridge_shrinkage_monotone_witness :
    IsSVD (1 : Matrix (Fin 1) (Fin 1) ℝ) d1R ∧ ((0 : ℝ) ≤ 1 ∧ (1 : ℝ) ≤ 2) ∧
    vnorm (ridge d1R ![3] 2) ≤ vnorm (ridge d1R ![3] 1) ∧
    Tendsto (fun lam => ridge d1R ![(3 : ℝ)] lam) atTop (nhds 0) :=
  ⟨isSVD_d1R, ⟨by norm_num, by norm_num⟩,
    (ridge_shrinkage_monotone 1 d1R isSVD_d1R ![3]).1 1 2 (by norm_num) (by norm_num),
    (ridge_shrinkage_monotone 1 d1R isSVD_d1R ![3]).2⟩

/-! ### Claim C7: penalty 0 with full column rank is ordinary least squares -/

lemma dot_mulVec_left (M : Matrix (Fin n) (Fin k) ℝ) (y : Fin n → ℝ) (w : Fin k → ℝ) :
    y ⬝ᵥ (M *ᵥ w) = (Mᵀ *ᵥ y) ⬝ᵥ w := by
  rw [Matrix.dotProduct_mulVec]
  congr 1
  rw [← Matrix.transpose_transpose M, Matrix.vecMul_transpose, Matrix.transpose_transpose]

lemma sumSq_eq_dot {m : ℕ} (u : Fin m → ℝ) : ∑ i, u i ^ 2 = u ⬝ᵥ u := by
  simp [Matrix.dotProduct, sq]

lemma diag_mulVec (S : Fin k → ℝ) (u : Fin k → ℝ) :
    Matrix.diagonal S *ᵥ u = fun i => S i * u i := by
  funext i
  simp [Matrix.mulVec, Matrix.diagonal_dotProduct]

lemma x_mulVec_svd (d : SVDData n k p ℝ) (x : Matrix (Fin n) (Fin p) ℝ)
    (hx : x = d.U * Matrix.diagonal d.S * d.Vᵀ) (b : Fin p → ℝ) :
    x *ᵥ b = d.U *ᵥ fun i => d.S i * (d.Vᵀ *ᵥ b) i := by
  rw [hx, ← Matrix.mulVec_mulVec, ← Matrix.mulVec_mulVec, diag_mulVec]

lemma rss_decomp (d : SVDData n k p ℝ) (x : Matrix (Fin n) (Fin p) ℝ)
    (hx : x = d.U * Matrix.diagonal d.S * d.Vᵀ) (hU : d.Uᵀ * d.U = 1)
    (y : Fin n → ℝ) (b : Fin p → ℝ) :
    specRss x y b = (y ⬝ᵥ y - (d.Uᵀ *ᵥ y) ⬝ᵥ (d.Uᵀ *ᵥ y))
      + ∑ i, (d.S i * (d.Vᵀ *ᵥ b) i - (d.Uᵀ *ᵥ y) i) ^ 2 := by
  set c := d.Uᵀ *ᵥ y with hc
  set w : Fin k → ℝ := fun i => d.S i * (d.Vᵀ *ᵥ b) i with hw
  have hxb : x *ᵥ b = d.U *ᵥ w := x_mulVec_svd d x hx b
  have hWW : (d.U *ᵥ w) ⬝ᵥ (d.U *ᵥ w) = w ⬝ᵥ w := by
    rw [dot_mulVec_left, Matrix.mulVec_mulVec, hU, Matrix.one_mulVec]
  have hyW : y ⬝ᵥ (d.U *ᵥ w) = c ⬝ᵥ w := dot_mulVec_left d.U y w
  have hL : specRss x y b = y ⬝ᵥ y - 2 * (c ⬝ᵥ w) + w ⬝ᵥ w := by
    unfold specRss
    rw [hxb]
    have : (∑ i, (y i - (d.U *ᵥ w) i) ^ 2) = (y - d.U *ᵥ w) ⬝ᵥ (y - d.U *ᵥ w) := by
      rw [← sumSq_eq_dot]
      simp [Pi.sub_apply]
    rw [this, Matrix.dotProduct_sub, Matrix.sub_dotProduct, Matrix.sub_dotProduct,
      Matrix.dotProduct_comm (d.U *ᵥ w) y, hyW, hWW]
    ring
  have hR : (∑ i, (w i - c i) ^ 2) = w ⬝ᵥ w - 2 * (c ⬝ᵥ w) + c ⬝ᵥ c := by
    rw [sumSq_eq_dot]
    have hsub : (fun i => w i - c i) = w - c := rfl
    rw [hsub, Matrix.dotProduct_sub, Matrix.sub_dotProduct, Matrix.sub_dotProduct,
      Matrix.dotProduct_comm w c]
    ring
  rw [hL, hR]
  ring

/-- C7: when `x` has full column rank (all singular values nonzero, square
`V`, `p ≤ n` implicit in the orthonormality of the `p` columns of `U`), the
ridge solve at penalty `0` is the ordinary-least-squares solution: it
minimises `||y - Xb||²` over all coefficient vectors, and every minimiser
equals it. -/
theorem ridge_zero_is_ols (d : SVDData n p p ℝ) (x : Matrix (Fin n) (Fin p) ℝ)
    (hd : IsSVD x d) (hS : ∀ i, d.S i ≠ 0) (y : Fin n → ℝ) :
    (∀ b : Fin p → ℝ, specRss x y (ridge d y 0) ≤ specRss x y b) ∧
    (∀ b : Fin p → ℝ, specRss x y b ≤ specRss x y (ridge d y 0) → b = ridge d y 0) := by
  obtain ⟨hx, hU, hV, hSnn⟩ := hd
  set c := d.Uᵀ *ᵥ y with hc
  have hwsol : (fun i => d.S i * (d.Vᵀ *ᵥ ridge d y 0) i) = c := by
    funext i
    have hVr : d.Vᵀ *ᵥ ridge d y 0 = fun j => c j * (d.S j / (d.S j ^ 2 + 0)) := by
      rw [ridge_apply, Matrix.mulVec_mulVec, hV, Matrix.one_mulVec]
    rw [hVr]
    have hs := hS i
    field_simp
    ring
  have hsolrw : ∀ i, d.S i * (d.Vᵀ *ᵥ ridge d y 0) i = c i := fun i => congrFun hwsol i
  have hrss_sol : specRss x y (ridge d y 0) = y ⬝ᵥ y - c ⬝ᵥ c := by
    rw [rss_decomp d x hx hU y _]
    simp [hsolrw]
  constructor
  · intro b
    rw [rss_decomp d x hx hU y b, hrss_sol]
    have h0 : (0 : ℝ) ≤ ∑ i, (d.S i * (d.Vᵀ *ᵥ b) i - c i) ^ 2 :=
      Finset.sum_nonneg fun i _ => sq_nonneg _
    linarith
  · intro b hb
    rw [rss_decomp d x hx hU y b, hrss_sol] at hb
    have hz0 : (∑ i, (d.S i * (d.Vᵀ *ᵥ b) i - c i) ^ 2) = 0 := by
      have h0 : (0 : ℝ) ≤ ∑ i, (d.S i * (d.Vᵀ *ᵥ b) i - c i) ^ 2 :=
        Finset.sum_nonneg fun i _ => sq_nonneg _
      linarith
    have hall : ∀ i, d.S i * (d.Vᵀ *ᵥ b) i = c i := by
      intro i
      have h1 := (Finset.sum_eq_zero_iff_of_nonneg
        (fun j (_ : j ∈ Finset.univ) => sq_nonneg
          (d.S j * (d.Vᵀ *ᵥ b) j - c j))).mp hz0 i (Finset.mem_univ i)
      have h2 := (pow_eq_zero_iff two_ne_zero).mp h1
      linarith
    have hVb : d.Vᵀ *ᵥ b = d.Vᵀ *ᵥ ridge d y 0 := by
      funext i
      exact mul_left_cancel₀ (hS i) ((hall i).trans (hsolrw i).symm)
    have hVV : d.V * d.Vᵀ = 1 := Matrix.mul_eq_one_comm.mp hV
    have hfin := congrArg (fun v => d.V *ᵥ v) hVb
    simpa [Matrix.mulVec_mulVec, hVV, Matrix.one_mulVec] using hfin


/-- Witness for `ridge_zero_is_ols` at the 1×1 identity design, `y = (3)`,
comparison vector `b = (5)`. -/
theorem ridge_zero_is_ols_witness :
    IsSVD (1 : Matrix (Fin 1) (Fin 1) ℝ) d1R ∧ (∀ i, d1R.S i ≠ 0) ∧
    specRss (1 : Matrix (Fin 1) (Fin 1) ℝ) ![3] (ridge d1R ![3] 0)
      ≤ specRss (1 : Matrix (Fin 1) (Fin 1) ℝ) ![3] ![5] :=
  have hS : ∀ i, d1R.S i ≠ 0 := by
    intro i
    fin_cases i
    norm_num [d1R]
  ⟨isSVD_d1R, hS, (ridge_zero_is_ols d1R 1 isSVD_d1R hS ![3]).1 ![5]⟩

/-! ### Claim C8: decomposition reuse equivalence -/

lemma xT_mulVec_svd (d : SVDData n k p ℝ) (x : Matrix (Fin n) (Fin p) ℝ)
    (hx : x = d.U * Matrix.diagonal d.S * d.Vᵀ) (u : Fin n → ℝ) :
    xᵀ *ᵥ u = d.V *ᵥ fun i => d.S i * (d.Uᵀ *ᵥ u) i := by
  rw [hx, Matrix.transpose_mul, Matrix.transpose_mul, Matrix.transpose_transpose,
    Matrix.diagonal_transpose, ← Matrix.mul_assoc, ← Matrix.mulVec_mulVec,
    ← Matrix.mulVec_mulVec, diag_mulVec]

lemma ridge_normal_eq (d : SVDData n k p ℝ) (x : Matrix (Fin n) (Fin p) ℝ)
    (hd : IsSVD x d) (y : Fin n → ℝ) (lam : ℝ) (hlam : 0 < lam) :
    (xᵀ * x + lam • (1 : Matrix (Fin p) (Fin p) ℝ)) *ᵥ ridge d y lam = xᵀ *ᵥ y := by
  obtain ⟨hx, hU, hV, _⟩ := hd
  set c : Fin k → ℝ := d.Uᵀ *ᵥ y with hc
  set w : Fin k → ℝ := fun i => c i * (d.S i / (d.S i ^ 2 + lam)) with hw
  have hr : ridge d y lam = d.V *ᵥ w := rfl
  have hVr : d.Vᵀ *ᵥ ridge d y lam = w := by
    rw [hr, Matrix.mulVec_mulVec, hV, Matrix.one_mulVec]
  have hxr : x *ᵥ ridge d y lam = d.U *ᵥ fun i => d.S i * w i := by
    rw [x_mulVec_svd d x hx, hVr]
  rw [Matrix.add_mulVec, ← Matrix.mulVec_mulVec, hxr, xT_mulVec_svd d x hx]
  have hUU : d.Uᵀ *ᵥ (d.U *ᵥ fun i => d.S i * w i) = fun i => d.S i * w i := by
    rw [Matrix.mulVec_mulVec, hU, Matrix.one_mulVec]
  rw [hUU, Matrix.smul_mulVec_assoc, hr, Matrix.one_mulVec, ← Matrix.mulVec_smul,
    ← Matrix.mulVec_add, xT_mulVec_svd d x hx y]
  apply congrArg (fun z : Fin k → ℝ => d.V *ᵥ z)
  funext i
  have hne : d.S i ^ 2 + lam ≠ 0 := by positivity
  simp only [hw, Pi.add_apply, Pi.smul_apply, smul_eq_mul, hc]
  field_simp
  ring

lemma gram_mulVec_inj (x : Matrix (Fin n) (Fin p) ℝ) (lam : ℝ) (hlam : 0 < lam)
    (u v : Fin p → ℝ)
    (h : (xᵀ * x + lam • (1 : Matrix (Fin p) (Fin p) ℝ)) *ᵥ u
       = (xᵀ * x + lam • (1 : Matrix (Fin p) (Fin p) ℝ)) *ᵥ v) : u = v := by
  set w : Fin p → ℝ := u - v with hwdef
  have hzero : (xᵀ * x + lam • (1 : Matrix (Fin p) (Fin p) ℝ)) *ᵥ w = 0 := by
    rw [hwdef, Matrix.mulVec_sub, h, sub_self]
  have hdot : w ⬝ᵥ ((xᵀ * x + lam • (1 : Matrix (Fin p) (Fin p) ℝ)) *ᵥ w) = 0 := by
    rw [hzero, Matrix.dotProduct_zero]
  rw [Matrix.add_mulVec, Matrix.dotProduct_add] at hdot
  have h1 : w ⬝ᵥ ((xᵀ * x) *ᵥ w) = (x *ᵥ w) ⬝ᵥ (x *ᵥ w) := by
    rw [← Matrix.mulVec_mulVec, dot_mulVec_left, Matrix.transpose_transpose]
  have h2 : w ⬝ᵥ ((lam • (1 : Matrix (Fin p) (Fin p) ℝ)) *ᵥ w) = lam * (w ⬝ᵥ w) := by
    rw [Matrix.smul_mulVec_assoc, Matrix.one_mulVec, Matrix.dotProduct_smul, smul_eq_mul]
  rw [h1, h2] at hdot
  have hA : 0 ≤ (x *ᵥ w) ⬝ᵥ (x *ᵥ w) := by
    rw [← sumSq_eq_dot]
    exact Finset.sum_nonneg fun i _ => sq_nonneg _
  have hB : 0 ≤ w ⬝ᵥ w := by
    rw [← sumSq_eq_dot]
    exact Finset.sum_nonneg fun i _ => sq_nonneg _
  have hw0 : w ⬝ᵥ w = 0 := by nlinarith
  have hwz : w = 0 := by
    rw [← sumSq_eq_dot] at hw0
    funext i
    have := (Finset.sum_eq_zero_iff_of_nonneg
      (fun j (_ : j ∈ Finset.univ) => sq_nonneg (w j))).mp hw0 i (Finset.mem_univ i)
    simpa using (pow_eq_zero_iff two_ne_zero).mp this
  have := sub_eq_zero.mp (hwdef ▸ hwz)
  exact this

/-- C8: the closure `fit(λ)` inside `tuneridge`, which reuses the
decomposition computed once from `x`, returns exactly the same coefficient
vector as the standalone `ridge`, which recomputes it.  First conjunct: on
the same decomposition the two are literally the same pure function of
`(Decomposition, y, λ)` (so repeated solves trivially agree — there is no
state to mutate).  Second conjunct: even on two different valid
decompositions `d`, `d'` of the same `x`, the solves agree for every
penalty `λ > 0` (both satisfy the normal equations
`(XᵀX + λI)b = Xᵀy`, whose matrix is positive definite). -/
theorem fit_ridge_decomposition_equiv (x : Matrix (Fin n) (Fin p) ℝ)
    (d : SVDData n k p ℝ) (d' : SVDData n k' p ℝ)
    (hd : IsSVD x d) (hd' : IsSVD x d') (y : Fin n → ℝ) :
    (∀ lam : ℝ, fitc d y lam = ridge d y lam) ∧
    (∀ lam : ℝ, 0 < lam → fitc d y lam = ridge d' y lam) := by
  refine ⟨fun lam => rfl, fun lam hlam => ?_⟩
  have h1 := ridge_normal_eq d x hd y lam hlam
  have h2 := ridge_normal_eq d' x hd' y lam hlam
  show ridge d y lam = ridge d' y lam
  exact gram_mulVec_inj x lam hlam _ _ (h1.trans h2.symm)


/-- Witness for `fit_ridge_decomposition_equiv` at the 1×1 identity
design, `y = (2)`, `λ = 1`. -/
theorem fit_ridge_decomposition_equiv_witness :
    IsSVD (1 : Matrix (Fin 1) (Fin 1) ℝ) d1R ∧ (0 : ℝ) < 1 ∧
    fitc d1R ![2] 1 = ridge d1R ![2] 1 :=
  ⟨isSVD_d1R, by norm_num,
    (fit_ridge_decomposition_equiv 1 d1R d1R isSVD_d1R isSVD_d1R ![2]).2 1 (by norm_num)⟩

/-! ### Claim C9: the significance computation -/

lemma msolve_eq_inv_mul (A B : Matrix (Fin q) (Fin q) ℝ) : msolve A B = A⁻¹ * B := by
  rw [msolve, Matrix.inv_def, Ring.inverse_eq_inv, smul_mul_assoc]

lemma msolveVec_eq_inv_mulVec (A : Matrix (Fin q) (Fin q) ℝ) (v : Fin q → ℝ) :
    msolveVec A v = A⁻¹ *ᵥ v := by
  rw [msolveVec, Matrix.inv_def, Ring.inverse_eq_inv, Matrix.smul_mulVec_assoc]

/-- C9: with symmetric `XᵀX` and invertible `H = XᵀX + λI`, the
significance computation returns the test statistic `b̂ᵀV⁻¹b̂` with
`V = σ²·H⁻¹·XᵀX·H⁻¹` — the code's nested linear solves
`s2 * solve(H, solve(H, xtx).T)` equal this `V` because `H` and `XᵀX`
are symmetric — and the p-value `1 - F(statistic)` where `F` is the
chi-squared CDF with `p = len(b)` degrees of freedom (the external
`scipy` CDF is the abstract parameter `chi2cdf`). -/
theorem sigfit_is_spec (chi2cdf : ℕ → ℝ → ℝ) (xtx : Matrix (Fin q) (Fin q) ℝ)
    (b : Fin q → ℝ) (lam s2 : ℝ) (hsym : xtxᵀ = xtx)
    (hH : IsUnit (xtx + lam • (1 : Matrix (Fin q) (Fin q) ℝ)).det) :
    sigfit chi2cdf xtx b lam s2 =
      (b ⬝ᵥ ((s2 • ((xtx + lam • 1)⁻¹ * xtx * (xtx + lam • 1)⁻¹))⁻¹ *ᵥ b),
        1 - chi2cdf q
          (b ⬝ᵥ ((s2 • ((xtx + lam • 1)⁻¹ * xtx * (xtx + lam • 1)⁻¹))⁻¹ *ᵥ b))) := by
  have hHsym : (xtx + lam • (1 : Matrix (Fin q) (Fin q) ℝ))ᵀ
      = xtx + lam • (1 : Matrix (Fin q) (Fin q) ℝ) := by
    rw [Matrix.transpose_add, hsym, Matrix.transpose_smul, Matrix.transpose_one]
  have hV : msolve (xtx + lam • 1) (msolve (xtx + lam • 1) xtx)ᵀ
      = (xtx + lam • (1 : Matrix (Fin q) (Fin q) ℝ))⁻¹ * xtx * (xtx + lam • 1)⁻¹ := by
    rw [msolve_eq_inv_mul, msolve_eq_inv_mul, Matrix.transpose_mul, hsym,
      Matrix.transpose_nonsing_inv, hHsym, Matrix.mul_assoc]
  simp only [sigfit]
  rw [hV, msolveVec_eq_inv_mulVec]


/-- Witness for `sigfit_is_spec` at `q = 1`, `xtx = 1`, `b = (1)`,
`λ = 1`, `σ² = 1`, with a trivial CDF. -/
theorem sigfit_is_spec_witness :
    ((1 : Matrix (Fin 1) (Fin 1) ℝ)ᵀ = 1) ∧
    IsUnit ((1 : Matrix (Fin 1) (Fin 1) ℝ) + (1 : ℝ) • 1).det ∧
    sigfit (fun _ _ => 0) (1 : Matrix (Fin 1) (Fin 1) ℝ) ![1] 1 1 =
      (![(1 : ℝ)] ⬝ᵥ (((1 : ℝ) • (((1 : Matrix (Fin 1) (Fin 1) ℝ) + (1 : ℝ) • 1)⁻¹
          * 1 * ((1 : Matrix (Fin 1) (Fin 1) ℝ) + (1 : ℝ) • 1)⁻¹))⁻¹ *ᵥ ![1]),
        1 - (fun (_ : ℕ) (_ : ℝ) => (0 : ℝ)) 1
          (![(1 : ℝ)] ⬝ᵥ (((1 : ℝ) • (((1 : Matrix (Fin 1) (Fin 1) ℝ) + (1 : ℝ) • 1)⁻¹
            * 1 * ((1 : Matrix (Fin 1) (Fin 1) ℝ) + (1 : ℝ) • 1)⁻¹))⁻¹ *ᵥ ![1]))) :=
  have hH : IsUnit ((1 : Matrix (Fin 1) (Fin 1) ℝ) + (1 : ℝ) • 1).det := by
    have hdet : ((1 : Matrix (Fin 1) (Fin 1) ℝ) + (1 : ℝ) • 1).det = 2 := by
      rw [Matrix.det_fin_one]
      norm_num [Matrix.add_apply, Matrix.smul_apply, Matrix.one_apply]
    rw [hdet]
    exact isUnit_iff_ne_zero.mpr (by norm_num)
  ⟨Matrix.transpose_one, hH,
    sigfit_is_spec (fun _ _ => 0) (1 : Matrix (Fin 1) (Fin 1) ℝ) ![1] 1 1
      Matrix.transpose_one hH⟩
